import Mathlib

/-!
Verification of the `renamer` repository's core pipeline: natural-order file
enumeration (`src/file_ops.rs`), zero-padded name generation
(`src/file_ops.rs`), and the streaming rename executor (`src/tasks.rs`).

The Rust code is shallowly embedded as follows.

* The `natord` crate's `compare` (used by `entries.sort_by` in
  `list_files_in_directory`) is modelled by `natCmp`, a direct translation of
  the crate's `compare_iter` loop specialised to `skip = |_| false` and
  `cont = |c| c.to_digit(10)`: runs of consecutive decimal digits are read
  whole and compared by their accumulated numeric value; other characters are
  compared by code point; when one input is exhausted the shorter compares as
  less.  (The crate accumulates run values in `isize`; we use `Nat`, which
  agrees for any digit run short enough not to overflow a 64-bit integer.)
* `std::path::Path::file_name` / `Path::extension` are modelled over plain
  `/`-separated path strings by `fileName` and `extension`, following the
  documented rules: the file name is the last non-`..` component (ignoring
  `.` and empty components), and the extension is what follows the last `.`
  of the file name unless that `.` is its leading character.
* The filesystem is a record `FS`: a content map for regular files, the
  result of the `walkdir` traversal (a list of per-entry results, as
  `WalkDir::into_iter` yields `Result<DirEntry, Error>` values), the result
  of `fs::create_dir_all`, and a permission oracle for `fs::copy`.
  `fs::copy` succeeds when the oracle allows it and the source exists, and
  then overwrites the destination path with the source's bytes; it never
  removes or renames anything.
* The `async_stream` generator in `perform_renaming_with_progress` is
  embedded as a function returning the finite list of yielded `Message`
  values (in order) together with the final filesystem state.
-/

namespace Renamer

/-! ### Characters and digit runs (model of the `natord` crate) -/

/-- `c.to_digit(10).is_some()` in Rust: decimal digit test by code point. -/
def isDigitChar (c : Char) : Bool := 48 ≤ c.toNat && c.toNat ≤ 57

/-- The numeric value `c.to_digit(10)` of a decimal digit character. -/
def digitVal (c : Char) : Nat := c.toNat - 48

/-- Value of a digit run, accumulated left to right as in `natord`'s loop
(`result = result * 10 + digit`). -/
def digitsVal (l : List Char) : Nat := l.foldl (fun acc c => acc * 10 + digitVal c) 0

/-- Rust's `char` ordering: comparison of Unicode scalar values. -/
def charCmp (a b : Char) : Ordering := compare a.toNat b.toNat

/-- Model of `natord::compare` on character lists.  Mirrors the crate's loop:
if both current characters are digits, the maximal digit runs are read and
compared by numeric value, and on a tie comparison resumes right after the
runs; otherwise the characters themselves are compared, equality advancing
both sides; an exhausted side compares as less. -/
def natCmp (l r : List Char) : Ordering :=
  match l, r with
  | [], [] => .eq
  | [], _ :: _ => .lt
  | _ :: _, [] => .gt
  | a :: as, b :: bs =>
    if isDigitChar a && isDigitChar b then
      match compare (digitsVal (a :: as.takeWhile isDigitChar))
          (digitsVal (b :: bs.takeWhile isDigitChar)) with
      | .eq => natCmp (as.dropWhile isDigitChar) (bs.dropWhile isDigitChar)
      | o => o
    else
      match charCmp a b with
      | .eq => natCmp as bs
      | o => o
termination_by l.length + r.length
decreasing_by
  · have h1 := (List.dropWhile_sublist (l := as) isDigitChar).length_le
    have h2 := (List.dropWhile_sublist (l := bs) isDigitChar).length_le
    simp only [List.length_cons]
    omega
  · simp only [List.length_cons]
    omega

/-- `natord::compare` on strings. -/
def natordCompare (a b : String) : Ordering := natCmp a.data b.data

/-- The Boolean "not greater" relation induced by `natord::compare`; a stable
sort by this relation is what `entries.sort_by(|a, b| compare(..))`
produces. -/
def natLe (a b : String) : Bool :=
  match natordCompare a b with
  | .gt => false
  | _ => true

/-! ### Path names: model of `Path::file_name` and `Path::extension` -/

/-- ASCII lower-casing of one character (the fragment of Rust's
`str::to_lowercase` exercised by extension comparison). -/
def lowerChar (c : Char) : Char :=
  if 65 ≤ c.toNat && c.toNat ≤ 90 then Char.ofNat (c.toNat + 32) else c

/-- `str::to_lowercase` (ASCII fragment). -/
def lowerStr (s : String) : String := String.mk (s.data.map lowerChar)

/-- Split a character list at `/` separators (the component structure of a
Unix path). -/
def splitSlash : List Char → List (List Char)
  | [] => [[]]
  | c :: cs =>
    if c = '/' then [] :: splitSlash cs
    else
      match splitSlash cs with
      | [] => [[c]]
      | r :: rs => (c :: r) :: rs

/-- Characters strictly after the last `.` of the list, if the list contains
a `.` at all. -/
def extSplit : List Char → Option (List Char)
  | [] => none
  | c :: cs =>
    match extSplit cs with
    | some e => some e
    | none => if c = '.' then some cs else none

/-- Model of `Path::file_name` for `/`-separated paths: the last path
component, ignoring empty and `.` components, and undefined when the path is
empty or ends in a `..` component. -/
def fileName (p : String) : Option String :=
  let comps := (splitSlash p.data).filter (fun c => c != [] && c != ['.'])
  match comps.getLast? with
  | none => none
  | some c => if c = ['.', '.'] then none else some (String.mk c)

/-- Model of `Path::extension`: the part of the file name after its last `.`,
unless the only `.` is the leading character of the file name (hidden files
have no extension). -/
def extension (p : String) : Option String :=
  match fileName p with
  | none => none
  | some n =>
    match n.data with
    | [] => none
    | _ :: cs => (extSplit cs).map String.mk

/-! ### `file_ops.rs` -/

/-- One entry produced by the `walkdir` traversal: its path and whether
`entry.file_type().is_file()` holds. -/
structure WalkEntry where
  path : String
  isFile : Bool
deriving DecidableEq

/-- `list_files_in_directory` from `src/file_ops.rs`.  `walk` stands for
`WalkDir::new(path).into_iter()`: the list of per-entry results of the
recursive traversal.  Failed entries are dropped by `.filter_map(|e| e.ok())`,
entries that are not regular files are dropped, the remaining paths are kept
when their extension equals the lower-cased `ext` parameter case-insensitively,
and the survivors are sorted with `natord::compare` (a stable sort, modelled
by `List.mergeSort`).  The function itself always returns `Ok`. -/
def list_files_in_directory (walk : String → List (Except String WalkEntry))
    (path ext : String) : Except String (List String) :=
  let ext_lower := lowerStr ext
  let entries :=
    (((walk path).filterMap Except.toOption).filter (fun entry => entry.isFile)).filterMap
      (fun entry =>
        let p := entry.path
        let keep := ((extension p).map (fun e => lowerStr e == ext_lower)).getD false
        if keep then some p else none)
  Except.ok (entries.mergeSort natLe)

/-- `format!("{:0width$}", n)` for a natural number: the decimal digits of
`n`, left-padded with zeros to `width` characters (and untruncated when the
decimal form is already longer). -/
def zeroPad (n width : Nat) : String :=
  let s := toString n
  String.mk (List.replicate (width - s.length) '0') ++ s

/-- `rename_files_with_leading_zeros` from `src/file_ops.rs`. -/
def rename_files_with_leading_zeros (files : List String) (padding_zeros : Nat)
    (include_original_name : Bool) : List String :=
  files.enum.map (fun ip =>
    let i := ip.1
    let path := ip.2
    let file_name := (fileName path).getD ""
    let index_str := zeroPad (i + 1) padding_zeros
    let ext := ((extension path).map (fun e => "." ++ e)).getD ""
    if include_original_name then index_str ++ "_" ++ file_name
    else index_str ++ ext)

/-! ### `tasks.rs`: filesystem model and the streaming executor -/

deriving instance DecidableEq for Except

/-- The `Message` enum from `src/ui.rs` (payload types translated:
`String` stays `String`, `usize` becomes `Nat`, `Result<Vec<String>, String>`
becomes `Except String (List String)`). -/
inductive Message where
  | FindInputFolder
  | FindOutputFolder
  | InputFolderPathed (path : String)
  | OutputFolderPathed (path : String)
  | StartRenaming
  | RenamingDone (result : Except String (List String))
  | ExtensionChanged (ext : String)
  | RenamingProgress (done total : Nat)
  | PaddingChanged (value : Nat)
  | IncludeOriginalNameChanged (flag : Bool)
  | SetAutoPadding (auto : Bool)
deriving DecidableEq

/-- Filesystem model for one run of the executor: file contents by path, the
`walkdir` traversal of a directory, the result of `fs::create_dir_all`, and a
permission oracle for `fs::copy` (disk-full, unwritable destination, ...). -/
structure FS where
  contents : String → Option String
  walk : String → List (Except String WalkEntry)
  createDirAll : String → Except String Unit
  copyPerm : String → String → Except String Unit

/-- `std::fs::copy(old, new)`: fails when the permission oracle refuses or
the source does not exist; on success the destination path is overwritten
with the source's bytes.  No path is ever removed. -/
def fsCopy (fs : FS) (old new : String) : Except String FS :=
  match fs.copyPerm old new with
  | .error e => .error e
  | .ok _ =>
    match fs.contents old with
    | none => .error "copy failed: source does not exist"
    | some data =>
      .ok { fs with contents := fun p => if p = new then some data else fs.contents p }

/-- `Path::join` for `/`-separated paths: an absolute `name` replaces `dir`,
otherwise the two are joined with a single separator. -/
def pathJoin (dir name : String) : String :=
  if name.data.headD ' ' = '/' then name
  else if dir = "" then name
  else if dir.data.getLast? = some '/' then dir ++ name
  else dir ++ "/" ++ name

/-- The `for` loop of `perform_renaming_with_progress`: copy each
`(old_path, new_name)` pair in order into `output_path`, pushing the
destination onto `result_names` and yielding `RenamingProgress(i + 1, total)`
after each successful copy; on a copy failure yield `RenamingDone(Err(..))`
and stop; after the last pair yield `RenamingDone(Ok(result_names))`. -/
def copyLoop (fs : FS) (output_path : String) (pairs : List (String × String))
    (i total : Nat) (result_names : List String) : List Message × FS :=
  match pairs with
  | [] => ([Message.RenamingDone (.ok result_names)], fs)
  | (old_path, new_name) :: rest =>
    let new_path := pathJoin output_path new_name
    match fsCopy fs old_path new_path with
    | .error e => ([Message.RenamingDone (.error e)], fs)
    | .ok fs' =>
      let next := copyLoop fs' output_path rest (i + 1) total (result_names ++ [new_path])
      (Message.RenamingProgress (i + 1) total :: next.1, next.2)

/-- `perform_renaming_with_progress` from `src/tasks.rs`, as the list of
messages the stream yields together with the final filesystem state. -/
def perform_renaming_with_progress (fs : FS) (input output : Option String)
    (ext : String) (padding_zeros : Nat) (include_original_name : Bool) :
    List Message × FS :=
  let input_path := input.getD ""
  let output_path := output.getD ""
  let ext_clean := String.mk (ext.data.dropWhile (· == '.'))
  match list_files_in_directory fs.walk input_path ext_clean with
  | .error e => ([Message.RenamingDone (.error e)], fs)
  | .ok files =>
    let total_files := files.length
    if total_files = 0 then
      ([Message.RenamingDone (.error "No files found to rename.")], fs)
    else
      match fs.createDirAll output_path with
      | .error e => ([Message.RenamingDone (.error e)], fs)
      | .ok _ =>
        let new_names := rename_files_with_leading_zeros files padding_zeros include_original_name
        copyLoop fs output_path (files.zip new_names) 0 total_files []

/-- Running the copies of a prefix of the loop: the final state when every
copy of `pairs` (in order, into `output_path`) succeeds, or the first error.
`copyLoop` succeeds exactly when this does; it is the executor's notion of
"every copy succeeds". -/
def applyCopies (fs : FS) (output_path : String) : List (String × String) → Except String FS
  | [] => .ok fs
  | (old_path, new_name) :: rest =>
    match fsCopy fs old_path (pathJoin output_path new_name) with
    | .error e => .error e
    | .ok fs' => applyCopies fs' output_path rest

/-! ### Theory of the natural-order comparison

To prove that `list_files_in_directory` really sorts (claim C4) we need the
relation `natLe` to be transitive and total.  We factor `natCmp` through a
tokenisation of the input into maximal digit runs and single non-digit
characters, prove the token comparison transitive and total, and transport
the result back along the factorisation. -/

/-- A token of the natural-order comparison: a maximal run of decimal digits,
or a single non-digit character. -/
inductive NatTok where
  | num (run : List Char)
  | ch (c : Char)
deriving DecidableEq

/-- First character of a digit run (runs produced by `tokenize` are never
empty, so the default is irrelevant). -/
def headOfRun (run : List Char) : Char := run.headD '0'

/-- Comparison of two tokens, as `natCmp` compares them: digit runs by
numeric value, characters by code point, and a digit run against a character
by the run's first character (the two characters `natCmp` actually sees). -/
def tokCmp : NatTok → NatTok → Ordering
  | .num s, .num t => compare (digitsVal s) (digitsVal t)
  | .num s, .ch d => charCmp (headOfRun s) d
  | .ch c, .num t => charCmp c (headOfRun t)
  | .ch c, .ch d => charCmp c d

/-- Split a character list into maximal digit runs and single non-digit
characters. -/
def tokenize (l : List Char) : List NatTok :=
  match l with
  | [] => []
  | c :: cs =>
    if isDigitChar c then
      NatTok.num (c :: cs.takeWhile isDigitChar) :: tokenize (cs.dropWhile isDigitChar)
    else NatTok.ch c :: tokenize cs
termination_by l.length
decreasing_by
  · have := (List.dropWhile_sublist (l := cs) isDigitChar).length_le
    simp only [List.length_cons]
    omega
  · simp only [List.length_cons]
    omega

/-- Lexicographic comparison of token lists; a proper prefix compares as
less. -/
def lexCmp : List NatTok → List NatTok → Ordering
  | [], [] => .eq
  | [], _ :: _ => .lt
  | _ :: _, [] => .gt
  | a :: as, b :: bs =>
    match tokCmp a b with
    | .eq => lexCmp as bs
    | o => o

/-- The shape invariant of tokens produced by `tokenize`: digit runs are
non-empty and all digits, character tokens are non-digits. -/
def TokValid : NatTok → Prop
  | .num run => run ≠ [] ∧ ∀ c ∈ run, isDigitChar c = true
  | .ch c => isDigitChar c = false

theorem natCompare_swap (m n : Nat) : compare n m = (compare m n).swap := by
  rcases Nat.lt_trichotomy m n with h | h | h
  · rw [Nat.compare_eq_lt.mpr h, Nat.compare_eq_gt.mpr h]
    rfl
  · subst h
    rw [Nat.compare_eq_eq.mpr rfl]
    rfl
  · rw [Nat.compare_eq_gt.mpr h, Nat.compare_eq_lt.mpr h]
    rfl

theorem charCmp_swap (a b : Char) : charCmp b a = (charCmp a b).swap :=
  natCompare_swap _ _

theorem charCmp_eq_iff {a b : Char} : charCmp a b = .eq ↔ a.toNat = b.toNat :=
  Nat.compare_eq_eq

theorem charCmp_lt_iff {a b : Char} : charCmp a b = .lt ↔ a.toNat < b.toNat :=
  Nat.compare_eq_lt

theorem charCmp_gt_iff {a b : Char} : charCmp a b = .gt ↔ b.toNat < a.toNat :=
  Nat.compare_eq_gt

theorem isDigitChar_iff {c : Char} : isDigitChar c = true ↔ 48 ≤ c.toNat ∧ c.toNat ≤ 57 := by
  simp [isDigitChar]

theorem isDigitChar_congr {a b : Char} (h : a.toNat = b.toNat) :
    isDigitChar a = isDigitChar b := by
  simp [isDigitChar, h]

theorem charCmp_congr_left {a b x : Char} (h : a.toNat = b.toNat) :
    charCmp a x = charCmp b x := by
  simp [charCmp, h]

theorem not_isDigitChar {d : Char} (hd : isDigitChar d = false) :
    d.toNat < 48 ∨ 57 < d.toNat := by
  have h : ¬ (48 ≤ d.toNat ∧ d.toNat ≤ 57) := by
    intro hcontra
    rw [isDigitChar_iff.mpr hcontra] at hd
    cases hd
  omega

/-- A non-digit character compares the same way against every digit. -/
theorem charCmp_digit_congr {x y d : Char} (hx : isDigitChar x = true)
    (hy : isDigitChar y = true) (hd : isDigitChar d = false) :
    charCmp x d = charCmp y d := by
  have hx' := isDigitChar_iff.mp hx
  have hy' := isDigitChar_iff.mp hy
  rcases not_isDigitChar hd with h | h
  · rw [charCmp_gt_iff.mpr (by omega), charCmp_gt_iff.mpr (by omega)]
  · rw [charCmp_lt_iff.mpr (by omega), charCmp_lt_iff.mpr (by omega)]

theorem headOfRun_digit {run : List Char} (h1 : run ≠ [])
    (h2 : ∀ c ∈ run, isDigitChar c = true) : isDigitChar (headOfRun run) = true := by
  cases run with
  | nil => exact absurd rfl h1
  | cons c cs => simpa [headOfRun] using h2 c (List.mem_cons_self c cs)

theorem tokenize_valid (l : List Char) : ∀ t ∈ tokenize l, TokValid t := by
  induction l using tokenize.induct with
  | case1 => simp [tokenize]
  | case2 c cs hc ih =>
    intro t ht
    rw [tokenize, if_pos hc] at ht
    rcases List.mem_cons.mp ht with rfl | ht
    · refine ⟨by simp, ?_⟩
      intro x hx
      rcases List.mem_cons.mp hx with rfl | hx
      · exact hc
      · have := List.all_eq_true.mp (List.all_takeWhile (p := isDigitChar) (l := cs)) x hx
        simpa using this
    · exact ih t ht
  | case3 c cs hc ih =>
    intro t ht
    rw [tokenize, if_neg hc] at ht
    rcases List.mem_cons.mp ht with rfl | ht
    · simpa [TokValid] using Bool.eq_false_iff.mpr hc
    · exact ih t ht

theorem natCmp_nil_nil : natCmp [] [] = .eq := by simp [natCmp]

theorem natCmp_nil_cons (b : Char) (bs : List Char) : natCmp [] (b :: bs) = .lt := by
  simp [natCmp]

theorem natCmp_cons_nil (a : Char) (as : List Char) : natCmp (a :: as) [] = .gt := by
  simp [natCmp]

theorem natCmp_cons_cons_digit {a b : Char} (as bs : List Char)
    (ha : isDigitChar a = true) (hb : isDigitChar b = true) :
    natCmp (a :: as) (b :: bs) =
      match compare (digitsVal (a :: as.takeWhile isDigitChar))
          (digitsVal (b :: bs.takeWhile isDigitChar)) with
      | .eq => natCmp (as.dropWhile isDigitChar) (bs.dropWhile isDigitChar)
      | o => o := by
  rw [natCmp]
  simp [ha, hb]

theorem natCmp_cons_cons_char {a b : Char} (as bs : List Char)
    (h : ¬ (isDigitChar a = true ∧ isDigitChar b = true)) :
    natCmp (a :: as) (b :: bs) =
      match charCmp a b with
      | .eq => natCmp as bs
      | o => o := by
  rw [natCmp]
  have hab : (isDigitChar a && isDigitChar b) = false := by
    cases ha : isDigitChar a with
    | false => simp
    | true =>
      cases hb : isDigitChar b with
      | false => simp
      | true => exact absurd ⟨ha, hb⟩ h
  simp [hab]

theorem tokenize_nil : tokenize [] = [] := by simp [tokenize]

theorem tokenize_cons_digit {c : Char} (cs : List Char) (h : isDigitChar c = true) :
    tokenize (c :: cs) =
      NatTok.num (c :: cs.takeWhile isDigitChar) :: tokenize (cs.dropWhile isDigitChar) := by
  rw [tokenize, if_pos h]

theorem tokenize_cons_char {c : Char} (cs : List Char) (h : isDigitChar c = false) :
    tokenize (c :: cs) = NatTok.ch c :: tokenize cs := by
  rw [tokenize, if_neg (by simp [h])]

/-- `natCmp` factors through tokenisation. -/
theorem natCmp_eq_lexCmp : ∀ (n : Nat) (l r : List Char), l.length + r.length ≤ n →
    natCmp l r = lexCmp (tokenize l) (tokenize r) := by
  intro n
  induction n with
  | zero =>
    intro l r hlen
    have hl : l = [] := List.eq_nil_of_length_eq_zero (by omega)
    have hr : r = [] := List.eq_nil_of_length_eq_zero (by omega)
    subst hl
    subst hr
    rw [natCmp_nil_nil, tokenize_nil, lexCmp]
  | succ n ih =>
    intro l r hlen
    match l, r with
    | [], [] => rw [natCmp_nil_nil, tokenize_nil, lexCmp]
    | [], b :: bs =>
      rw [natCmp_nil_cons, tokenize_nil]
      cases hb : isDigitChar b with
      | false => rw [tokenize_cons_char bs hb, lexCmp]
      | true => rw [tokenize_cons_digit bs hb, lexCmp]
    | a :: as, [] =>
      rw [natCmp_cons_nil, tokenize_nil]
      cases ha : isDigitChar a with
      | false => rw [tokenize_cons_char as ha, lexCmp]
      | true => rw [tokenize_cons_digit as ha, lexCmp]
    | a :: as, b :: bs =>
      have hlen' : as.length + bs.length ≤ n := by
        simp only [List.length_cons] at hlen
        omega
      cases ha : isDigitChar a with
      | false =>
        cases hb : isDigitChar b with
        | false =>
          -- both non-digits: plain character comparison
          rw [natCmp_cons_cons_char as bs (by simp [ha]),
            tokenize_cons_char as ha, tokenize_cons_char bs hb, lexCmp]
          have hhead : tokCmp (NatTok.ch a) (NatTok.ch b) = charCmp a b := rfl
          rw [hhead]
          cases hc : charCmp a b with
          | eq => exact ih as bs hlen'
          | lt => rfl
          | gt => rfl
        | true =>
          -- left non-digit, right digit: character against first run digit
          rw [natCmp_cons_cons_char as bs (by simp [ha]),
            tokenize_cons_char as ha, tokenize_cons_digit bs hb, lexCmp]
          have hhead : tokCmp (NatTok.ch a) (NatTok.num (b :: bs.takeWhile isDigitChar)) =
              charCmp a b := by
            simp [tokCmp, headOfRun]
          rw [hhead]
          cases hc : charCmp a b with
          | eq =>
            have hcongr : isDigitChar a = isDigitChar b := isDigitChar_congr (charCmp_eq_iff.mp hc)
            rw [ha, hb] at hcongr
            cases hcongr
          | lt => rfl
          | gt => rfl
      | true =>
        cases hb : isDigitChar b with
        | false =>
          -- left digit, right non-digit
          rw [natCmp_cons_cons_char as bs (by simp [hb]),
            tokenize_cons_digit as ha, tokenize_cons_char bs hb, lexCmp]
          have hhead : tokCmp (NatTok.num (a :: as.takeWhile isDigitChar)) (NatTok.ch b) =
              charCmp a b := by
            simp [tokCmp, headOfRun]
          rw [hhead]
          cases hc : charCmp a b with
          | eq =>
            have hcongr : isDigitChar a = isDigitChar b := isDigitChar_congr (charCmp_eq_iff.mp hc)
            rw [ha, hb] at hcongr
            cases hcongr
          | lt => rfl
          | gt => rfl
        | true =>
          -- both digits: compare the maximal runs numerically
          rw [natCmp_cons_cons_digit as bs ha hb,
            tokenize_cons_digit as ha, tokenize_cons_digit bs hb, lexCmp]
          have hhead : tokCmp (NatTok.num (a :: as.takeWhile isDigitChar))
              (NatTok.num (b :: bs.takeWhile isDigitChar)) =
              compare (digitsVal (a :: as.takeWhile isDigitChar))
                (digitsVal (b :: bs.takeWhile isDigitChar)) := rfl
          rw [hhead]
          cases hc : compare (digitsVal (a :: as.takeWhile isDigitChar))
              (digitsVal (b :: bs.takeWhile isDigitChar)) with
          | eq =>
            have h1 := (List.dropWhile_sublist (l := as) isDigitChar).length_le
            have h2 := (List.dropWhile_sublist (l := bs) isDigitChar).length_le
            exact ih _ _ (by omega)
          | lt => rfl
          | gt => rfl

theorem natCmp_factor (l r : List Char) :
    natCmp l r = lexCmp (tokenize l) (tokenize r) :=
  natCmp_eq_lexCmp (l.length + r.length) l r le_rfl

theorem tokCmp_swap (a b : NatTok) : tokCmp b a = (tokCmp a b).swap := by
  cases a <;> cases b <;> exact natCompare_swap _ _

theorem lexCmp_swap : ∀ (as bs : List NatTok), lexCmp bs as = (lexCmp as bs).swap := by
  intro as
  induction as with
  | nil =>
    intro bs
    cases bs <;> rfl
  | cons a as ih =>
    intro bs
    cases bs with
    | nil => rfl
    | cons b bs =>
      rw [lexCmp, lexCmp, tokCmp_swap]
      cases tokCmp a b with
      | eq => exact ih bs
      | lt => rfl
      | gt => rfl

/-- Tokens that compare equal compare the same way against every valid
token. -/
theorem tokCmp_congr_left {a b : NatTok} (ha : TokValid a) (hb : TokValid b)
    (hab : tokCmp a b = .eq) : ∀ c, TokValid c → tokCmp a c = tokCmp b c := by
  intro c hc
  cases a with
  | num s =>
    cases b with
    | num t =>
      have hval : digitsVal s = digitsVal t := Nat.compare_eq_eq.mp hab
      cases c with
      | num u => simp only [tokCmp, hval]
      | ch d =>
        exact charCmp_digit_congr (headOfRun_digit ha.1 ha.2) (headOfRun_digit hb.1 hb.2) hc
    | ch d =>
      exfalso
      have htn : (headOfRun s).toNat = d.toNat := charCmp_eq_iff.mp hab
      have hdig := headOfRun_digit ha.1 ha.2
      rw [isDigitChar_congr htn] at hdig
      rw [hb] at hdig
      cases hdig
  | ch c0 =>
    cases b with
    | num t =>
      exfalso
      have htn : c0.toNat = (headOfRun t).toNat := charCmp_eq_iff.mp hab
      have hdig := headOfRun_digit hb.1 hb.2
      rw [← isDigitChar_congr htn] at hdig
      rw [ha] at hdig
      cases hdig
    | ch d =>
      have htn : c0.toNat = d.toNat := charCmp_eq_iff.mp hab
      cases c with
      | num u => simp only [tokCmp]; exact charCmp_congr_left htn
      | ch e => simp only [tokCmp]; exact charCmp_congr_left htn

theorem tokCmp_congr_right {a b c : NatTok} (ha : TokValid a) (hb : TokValid b)
    (hc : TokValid c) (hbc : tokCmp b c = .eq) : tokCmp a b = tokCmp a c := by
  have h1 : tokCmp b a = tokCmp c a := tokCmp_congr_left hb hc hbc a ha
  have h2 := tokCmp_swap a b
  have h3 := tokCmp_swap a c
  have : (tokCmp a b).swap = (tokCmp a c).swap := by rw [← h2, ← h3, h1]
  cases hab : tokCmp a b <;> cases hac : tokCmp a c <;>
    simp [hab, hac, Ordering.swap] at this ⊢

/-- Strict transitivity of the token comparison on valid tokens. -/
theorem tokCmp_lt_trans {a b c : NatTok} (ha : TokValid a) (hb : TokValid b)
    (hc : TokValid c) (h1 : tokCmp a b = .lt) (h2 : tokCmp b c = .lt) :
    tokCmp a c = .lt := by
  cases a with
  | num s =>
    have hs := isDigitChar_iff.mp (headOfRun_digit ha.1 ha.2)
    cases b with
    | num t =>
      have ht := isDigitChar_iff.mp (headOfRun_digit hb.1 hb.2)
      have hst : digitsVal s < digitsVal t := Nat.compare_eq_lt.mp h1
      cases c with
      | num u =>
        exact Nat.compare_eq_lt.mpr (Nat.lt_trans hst (Nat.compare_eq_lt.mp h2))
      | ch d =>
        -- the non-digit d is above the digit head of t, hence above every digit
        have hd := not_isDigitChar hc
        have htd : (headOfRun t).toNat < d.toNat := charCmp_lt_iff.mp h2
        exact charCmp_lt_iff.mpr (by omega)
    | ch d =>
      have hd := not_isDigitChar hb
      have hsd : (headOfRun s).toNat < d.toNat := charCmp_lt_iff.mp h1
      cases c with
      | num u =>
        have hu := isDigitChar_iff.mp (headOfRun_digit hc.1 hc.2)
        have hu := isDigitChar_iff.mp (headOfRun_digit hc.1 hc.2)
        have hdu : d.toNat < (headOfRun u).toNat := charCmp_lt_iff.mp h2
        -- impossible: d would sit strictly between two digits
        exact False.elim (by omega)
      | ch e =>
        have hde : d.toNat < e.toNat := charCmp_lt_iff.mp h2
        exact charCmp_lt_iff.mpr (Nat.lt_trans hsd hde)
  | ch c0 =>
    cases b with
    | num t =>
      have ht := isDigitChar_iff.mp (headOfRun_digit hb.1 hb.2)
      have hc0 := not_isDigitChar ha
      have h0t : c0.toNat < (headOfRun t).toNat := charCmp_lt_iff.mp h1
      cases c with
      | num u =>
        have hu := isDigitChar_iff.mp (headOfRun_digit hc.1 hc.2)
        exact charCmp_lt_iff.mpr (by omega)
      | ch e =>
        have hte : (headOfRun t).toNat < e.toNat := charCmp_lt_iff.mp h2
        exact charCmp_lt_iff.mpr (Nat.lt_trans h0t hte)
    | ch d =>
      have h0d : c0.toNat < d.toNat := charCmp_lt_iff.mp h1
      cases c with
      | num u =>
        have hdu : d.toNat < (headOfRun u).toNat := charCmp_lt_iff.mp h2
        exact charCmp_lt_iff.mpr (Nat.lt_trans h0d hdu)
      | ch e =>
        have hde : d.toNat < e.toNat := charCmp_lt_iff.mp h2
        exact charCmp_lt_iff.mpr (Nat.lt_trans h0d hde)

/-- Transitivity of "not greater" for the token comparison on valid
tokens. -/
theorem tokCmp_le_trans {a b c : NatTok} (ha : TokValid a) (hb : TokValid b)
    (hc : TokValid c) (h1 : tokCmp a b ≠ .gt) (h2 : tokCmp b c ≠ .gt) :
    tokCmp a c ≠ .gt := by
  cases hab : tokCmp a b with
  | gt => exact absurd hab h1
  | lt =>
    cases hbc : tokCmp b c with
    | gt => exact absurd hbc h2
    | lt => rw [tokCmp_lt_trans ha hb hc hab hbc]; intro h; cases h
    | eq =>
      rw [← tokCmp_congr_right ha hb hc hbc, hab]
      intro h
      cases h
  | eq =>
    cases hbc : tokCmp b c with
    | gt => exact absurd hbc h2
    | lt =>
      rw [tokCmp_congr_left ha hb hab c hc, hbc]
      intro h
      cases h
    | eq =>
      rw [tokCmp_congr_left ha hb hab c hc, hbc]
      intro h
      cases h

/-- Transitivity of "not greater" for the lexicographic token-list
comparison on valid token lists. -/
theorem lexCmp_le_trans : ∀ (as bs cs : List NatTok),
    (∀ t ∈ as, TokValid t) → (∀ t ∈ bs, TokValid t) → (∀ t ∈ cs, TokValid t) →
    lexCmp as bs ≠ .gt → lexCmp bs cs ≠ .gt → lexCmp as cs ≠ .gt := by
  intro as
  induction as with
  | nil =>
    intro bs cs _ _ _ _ _
    cases cs <;> intro h <;> cases h
  | cons a as ih =>
    intro bs cs hva hvb hvc h1 h2
    cases bs with
    | nil => exact absurd rfl h1
    | cons b bs =>
      cases cs with
      | nil => exact absurd rfl h2
      | cons c cs =>
        have hta : TokValid a := hva a (List.mem_cons_self a as)
        have htb : TokValid b := hvb b (List.mem_cons_self b bs)
        have htc : TokValid c := hvc c (List.mem_cons_self c cs)
        rw [lexCmp] at h1 h2 ⊢
        cases hab : tokCmp a b with
        | gt => rw [hab] at h1; exact absurd rfl h1
        | lt =>
          rw [hab] at h1
          cases hbc : tokCmp b c with
          | gt => rw [hbc] at h2; exact absurd rfl h2
          | lt => rw [tokCmp_lt_trans hta htb htc hab hbc]; intro h; cases h
          | eq => rw [← tokCmp_congr_right hta htb htc hbc, hab]; intro h; cases h
        | eq =>
          rw [hab] at h1
          cases hbc : tokCmp b c with
          | gt => rw [hbc] at h2; exact absurd rfl h2
          | lt => rw [tokCmp_congr_left hta htb hab c htc, hbc]; intro h; cases h
          | eq =>
            rw [hbc] at h2
            rw [tokCmp_congr_left hta htb hab c htc, hbc]
            exact ih bs cs (fun t ht => hva t (List.mem_cons_of_mem a ht))
              (fun t ht => hvb t (List.mem_cons_of_mem b ht))
              (fun t ht => hvc t (List.mem_cons_of_mem c ht)) h1 h2

theorem natLe_iff {a b : String} : natLe a b = true ↔ natordCompare a b ≠ .gt := by
  rw [natLe]
  cases natordCompare a b <;> simp

/-- `natLe` is transitive: the key fact making `sort_by(natord::compare)`
produce a sorted list. -/
theorem natLe_trans (a b c : String) (h1 : natLe a b = true) (h2 : natLe b c = true) :
    natLe a c = true := by
  rw [natLe_iff] at h1 h2 ⊢
  rw [natordCompare, natCmp_factor] at h1 h2 ⊢
  exact lexCmp_le_trans _ _ _ (tokenize_valid a.data) (tokenize_valid b.data)
    (tokenize_valid c.data) h1 h2

/-- `natLe` is total. -/
theorem natLe_total (a b : String) : natLe a b || natLe b a := by
  rcases Bool.eq_false_or_eq_true (natLe a b) with hab | hab
  all_goals rcases Bool.eq_false_or_eq_true (natLe b a) with hba | hba
  all_goals try simp [hab, hba]
  exfalso
  have h1 : natordCompare a b = .gt := by
    rw [natLe] at hab
    cases h : natordCompare a b <;> rw [h] at hab <;> first | rfl | cases hab
  have h2 : natordCompare b a = .gt := by
    rw [natLe] at hba
    cases h : natordCompare b a <;> rw [h] at hba <;> first | rfl | cases hba
  have hswap : natordCompare b a = (natordCompare a b).swap := by
    rw [natordCompare, natordCompare, natCmp_factor, natCmp_factor]
    exact lexCmp_swap _ _
  rw [h1, h2] at hswap
  cases hswap

/-! ### Behaviour of the copy loop -/

theorem fsCopy_contents_of_ne {fs fs' : FS} {old new p : String}
    (h : fsCopy fs old new = .ok fs') (hne : p ≠ new) :
    fs'.contents p = fs.contents p := by
  rw [fsCopy] at h
  cases hperm : fs.copyPerm old new with
  | error e => rw [hperm] at h; cases h
  | ok u =>
    rw [hperm] at h
    cases hold : fs.contents old with
    | none => rw [hold] at h; cases h
    | some data =>
      rw [hold] at h
      cases h
      simp [hne]

theorem fsCopy_isSome {fs fs' : FS} {old new p : String}
    (h : fsCopy fs old new = .ok fs') (hp : (fs.contents p).isSome = true) :
    (fs'.contents p).isSome = true := by
  by_cases hne : p = new
  · subst hne
    rw [fsCopy] at h
    cases hperm : fs.copyPerm old p with
    | error e => rw [hperm] at h; cases h
    | ok u =>
      rw [hperm] at h
      cases hold : fs.contents old with
      | none => rw [hold] at h; cases h
      | some data => rw [hold] at h; cases h; simp
  · rw [fsCopy_contents_of_ne h hne]
    exact hp

theorem fsCopy_dest_isSome {fs fs' : FS} {old new : String}
    (h : fsCopy fs old new = .ok fs') : (fs'.contents new).isSome = true := by
  rw [fsCopy] at h
  cases hperm : fs.copyPerm old new with
  | error e => rw [hperm] at h; cases h
  | ok u =>
    rw [hperm] at h
    cases hold : fs.contents old with
    | none => rw [hold] at h; cases h
    | some data => rw [hold] at h; cases h; simp

/-- When every copy succeeds, the loop yields one progress message per pair,
with `completed` counting up from `i + 1`, then the single terminal success
message listing the destination paths in order; the final state is the one
`applyCopies` produces. -/
theorem copyLoop_ok : ∀ (pairs : List (String × String)) (fs fs' : FS) (out : String)
    (i total : Nat) (acc : List String),
    applyCopies fs out pairs = .ok fs' →
    copyLoop fs out pairs i total acc =
      ((List.range pairs.length).map (fun k => Message.RenamingProgress (i + k + 1) total) ++
        [Message.RenamingDone (.ok (acc ++ pairs.map (fun pr => pathJoin out pr.2)))], fs') := by
  intro pairs
  induction pairs with
  | nil =>
    intro fs fs' out i total acc h
    rw [applyCopies] at h
    cases h
    simp [copyLoop]
  | cons pr rest ih =>
    intro fs fs' out i total acc h
    obtain ⟨old, nm⟩ := pr
    rw [applyCopies] at h
    cases hcopy : fsCopy fs old (pathJoin out nm) with
    | error e => rw [hcopy] at h; cases h
    | ok fs1 =>
      rw [hcopy] at h
      dsimp only at h
      rw [copyLoop, hcopy]
      dsimp only
      rw [ih fs1 fs' out (i + 1) total (acc ++ [pathJoin out nm]) h]
      simp only [List.length_cons, List.range_succ_eq_map, List.map_cons, List.map_map,
        List.cons_append, List.map_cons]
      have hmap : List.map ((fun k => Message.RenamingProgress (i + k + 1) total) ∘ Nat.succ)
          (List.range rest.length) =
          List.map (fun k => Message.RenamingProgress (i + 1 + k + 1) total)
            (List.range rest.length) := by
        apply List.map_congr_left
        intro k _
        show Message.RenamingProgress (i + (k + 1) + 1) total =
          Message.RenamingProgress (i + 1 + k + 1) total
        have harith : i + (k + 1) + 1 = i + 1 + k + 1 := by omega
        rw [harith]
      rw [hmap]
      simp

/-- When the copy of the pair after `pre` fails, the loop yields one progress
message per element of `pre`, then the single terminal failure message with
the copy error, and stops in the state reached after `pre`'s copies. -/
theorem copyLoop_fail : ∀ (pre : List (String × String)) (fs fs1 : FS) (out old nm e : String)
    (post : List (String × String)) (i total : Nat) (acc : List String),
    applyCopies fs out pre = .ok fs1 →
    fsCopy fs1 old (pathJoin out nm) = .error e →
    copyLoop fs out (pre ++ (old, nm) :: post) i total acc =
      ((List.range pre.length).map (fun k => Message.RenamingProgress (i + k + 1) total) ++
        [Message.RenamingDone (.error e)], fs1) := by
  intro pre
  induction pre with
  | nil =>
    intro fs fs1 out old nm e post i total acc hpre hfail
    rw [applyCopies] at hpre
    cases hpre
    rw [List.nil_append, copyLoop, hfail]
    simp
  | cons pr rest ih =>
    intro fs fs1 out old nm e post i total acc hpre hfail
    obtain ⟨old0, nm0⟩ := pr
    rw [applyCopies] at hpre
    cases hcopy : fsCopy fs old0 (pathJoin out nm0) with
    | error e0 => rw [hcopy] at hpre; cases hpre
    | ok fsmid =>
      rw [hcopy] at hpre
      dsimp only at hpre
      rw [List.cons_append, copyLoop, hcopy]
      dsimp only
      rw [ih fsmid fs1 out old nm e post (i + 1) total (acc ++ [pathJoin out nm0]) hpre hfail]
      simp only [List.length_cons, List.range_succ_eq_map, List.map_cons, List.map_map,
        List.cons_append]
      have hmap : List.map ((fun k => Message.RenamingProgress (i + k + 1) total) ∘ Nat.succ)
          (List.range rest.length) =
          List.map (fun k => Message.RenamingProgress (i + 1 + k + 1) total)
            (List.range rest.length) := by
        apply List.map_congr_left
        intro k _
        show Message.RenamingProgress (i + (k + 1) + 1) total =
          Message.RenamingProgress (i + 1 + k + 1) total
        have harith : i + (k + 1) + 1 = i + 1 + k + 1 := by omega
        rw [harith]
      rw [hmap]

/-- The loop never touches a path that is not one of its destination
paths. -/
theorem copyLoop_contents_of_not_dest : ∀ (pairs : List (String × String)) (fs : FS)
    (out : String) (i total : Nat) (acc : List String) (p : String),
    (∀ pr ∈ pairs, p ≠ pathJoin out pr.2) →
    ((copyLoop fs out pairs i total acc).2).contents p = fs.contents p := by
  intro pairs
  induction pairs with
  | nil => intro fs out i total acc p _; rfl
  | cons pr rest ih =>
    intro fs out i total acc p hp
    obtain ⟨old, nm⟩ := pr
    rw [copyLoop]
    cases hcopy : fsCopy fs old (pathJoin out nm) with
    | error e => rfl
    | ok fs1 =>
      have h1 : ((copyLoop fs1 out rest (i + 1) total (acc ++ [pathJoin out nm])).2).contents p =
          fs1.contents p :=
        ih fs1 out (i + 1) total (acc ++ [pathJoin out nm]) p
          (fun q hq => hp q (List.mem_cons_of_mem _ hq))
      have h2 : fs1.contents p = fs.contents p :=
        fsCopy_contents_of_ne hcopy (hp (old, nm) (List.mem_cons_self _ _))
      simp only []
      rw [h1, h2]

/-- The loop never deletes anything: any path present before it runs is
present afterwards. -/
theorem copyLoop_isSome : ∀ (pairs : List (String × String)) (fs : FS)
    (out : String) (i total : Nat) (acc : List String) (p : String),
    (fs.contents p).isSome = true →
    (((copyLoop fs out pairs i total acc).2).contents p).isSome = true := by
  intro pairs
  induction pairs with
  | nil => intro fs out i total acc p hp; exact hp
  | cons pr rest ih =>
    intro fs out i total acc p hp
    obtain ⟨old, nm⟩ := pr
    rw [copyLoop]
    cases hcopy : fsCopy fs old (pathJoin out nm) with
    | error e => exact hp
    | ok fs1 =>
      exact ih fs1 out (i + 1) total (acc ++ [pathJoin out nm]) p (fsCopy_isSome hcopy hp)

theorem applyCopies_isSome : ∀ (pairs : List (String × String)) (fs fs' : FS)
    (out : String) (p : String), applyCopies fs out pairs = .ok fs' →
    (fs.contents p).isSome = true → (fs'.contents p).isSome = true := by
  intro pairs
  induction pairs with
  | nil =>
    intro fs fs' out p h hp
    rw [applyCopies] at h
    cases h
    exact hp
  | cons pr rest ih =>
    intro fs fs' out p h hp
    obtain ⟨old, nm⟩ := pr
    rw [applyCopies] at h
    cases hcopy : fsCopy fs old (pathJoin out nm) with
    | error e => rw [hcopy] at h; cases h
    | ok fs1 =>
      rw [hcopy] at h
      exact ih fs1 fs' out p h (fsCopy_isSome hcopy hp)

/-- After a successful run of copies, every destination path exists. -/
theorem applyCopies_dest_isSome : ∀ (pairs : List (String × String)) (fs fs' : FS)
    (out : String), applyCopies fs out pairs = .ok fs' →
    ∀ pr ∈ pairs, (fs'.contents (pathJoin out pr.2)).isSome = true := by
  intro pairs
  induction pairs with
  | nil => intro fs fs' out _ pr hpr; cases hpr
  | cons pr0 rest ih =>
    intro fs fs' out h pr hpr
    obtain ⟨old, nm⟩ := pr0
    rw [applyCopies] at h
    cases hcopy : fsCopy fs old (pathJoin out nm) with
    | error e => rw [hcopy] at h; cases h
    | ok fs1 =>
      rw [hcopy] at h
      rcases List.mem_cons.mp hpr with rfl | hpr
      · exact applyCopies_isSome rest fs1 fs' out _ h (fsCopy_dest_isSome hcopy)
      · exact ih fs1 fs' out h pr hpr

theorem rename_length (files : List String) (w : Nat) (b : Bool) :
    (rename_files_with_leading_zeros files w b).length = files.length := by
  simp [rename_files_with_leading_zeros, List.enum_length]

/-- Unfolding of the executor on the path where enumeration yields a
non-empty list and the output directory is created successfully. -/
theorem perform_eq_copyLoop {fs : FS} {input output : Option String} {ext : String}
    {padding_zeros : Nat} {flag : Bool} {files : List String}
    (hfiles : list_files_in_directory fs.walk (input.getD "") (String.mk (ext.data.dropWhile (· == '.'))) =
      .ok files)
    (hne : files ≠ [])
    (hdir : fs.createDirAll (output.getD "") = .ok ()) :
    perform_renaming_with_progress fs input output ext padding_zeros flag =
      copyLoop fs (output.getD "")
        (files.zip (rename_files_with_leading_zeros files padding_zeros flag))
        0 files.length [] := by
  simp only [perform_renaming_with_progress]
  rw [hfiles]
  dsimp only
  rw [if_neg (by simpa using fun h => hne (List.eq_nil_of_length_eq_zero h))]
  rw [hdir]

/-! ### Demonstration filesystems used by the concrete witnesses -/

/-- A directory `in` with three mp3 files whose names force a non-trivial
natural order, and a permissive filesystem. -/
def fsDemo : FS where
  contents := fun p =>
    if p = "in/a1.mp3" then some "A"
    else if p = "in/a2.mp3" then some "B"
    else if p = "in/a10.mp3" then some "C"
    else none
  walk := fun p =>
    if p = "in" then
      [Except.ok ⟨"in", false⟩, Except.ok ⟨"in/a2.mp3", true⟩,
       Except.ok ⟨"in/a10.mp3", true⟩, Except.ok ⟨"in/a1.mp3", true⟩]
    else []
  createDirAll := fun _ => Except.ok ()
  copyPerm := fun _ _ => Except.ok ()

/-- A directory containing no file that matches extension `mp3`. -/
def fsNoMatch : FS where
  contents := fun p => if p = "in/readme.txt" then some "hello" else none
  walk := fun p =>
    if p = "in" then [Except.ok ⟨"in", false⟩, Except.ok ⟨"in/readme.txt", true⟩]
    else []
  createDirAll := fun _ => Except.ok ()
  copyPerm := fun _ _ => Except.ok ()

/-- A directory that cannot be opened: `walkdir` yields a single error entry
(its documented behaviour when the root cannot be read). -/
def fsUnreadable : FS where
  contents := fun _ => none
  walk := fun _ =>
    [Except.error "IO error for operation on /locked: Permission denied (os error 13)"]
  createDirAll := fun _ => Except.ok ()
  copyPerm := fun _ _ => Except.ok ()

/-- Helper describing the executor on an empty enumeration: a single
terminal failure message. -/
theorem perform_of_empty {fs : FS} {input output : Option String} {ext : String}
    {padding_zeros : Nat} {flag : Bool}
    (hempty : list_files_in_directory fs.walk (input.getD "")
      (String.mk (ext.data.dropWhile (· == '.'))) = .ok []) :
    (perform_renaming_with_progress fs input output ext padding_zeros flag).1 =
      [Message.RenamingDone (.error "No files found to rename.")] := by
  simp only [perform_renaming_with_progress]
  rw [hempty]
  simp

/-- C8: for every operation in which enumeration succeeds but yields zero
matching files, the executor stream emits exactly one event, the terminal
failure with the exact message "No files found to rename.", preceded by zero
progress events. -/
theorem C8_empty_input_failure (fs : FS) (input output : Option String) (ext : String)
    (padding_zeros : Nat) (include_original_name : Bool)
    (hempty : list_files_in_directory fs.walk (input.getD "")
      (String.mk (ext.data.dropWhile (· == '.'))) = .ok []) :
    (perform_renaming_with_progress fs input output ext padding_zeros
        include_original_name).1 =
      [Message.RenamingDone (.error "No files found to rename.")] :=
  perform_of_empty hempty

theorem C8_empty_input_failure_witness :
    (perform_renaming_with_progress fsNoMatch (some "in") (some "out") "mp3" 3 true).1 =
      [Message.RenamingDone (.error "No files found to rename.")] :=
  C8_empty_input_failure fsNoMatch (some "in") (some "out") "mp3" 3 true
    (by simp +decide [list_files_in_directory, fsNoMatch, extension, fileName, extSplit,
      splitSlash, lowerStr, lowerChar, Except.toOption])

/-- C3 counterexample: on a directory that cannot be opened or read,
`list_files_in_directory` does not return an error: `walkdir`'s error entry
is dropped by `.filter_map(|e| e.ok())` and the function returns the success
value `Ok []`. -/
theorem C3_enumeration_counterexample :
    list_files_in_directory fsUnreadable.walk "/locked" "mp3" = Except.ok [] := by
  simp +decide [list_files_in_directory, fsUnreadable, Except.toOption]

/-- C3 (amended): `list_files_in_directory` never returns an error; when the
directory cannot be opened or read (every walk entry is an error, as
`walkdir` reports for an unreadable root) it returns `Ok []`, and the
executor consequently emits `Failure("No files found to rename.")` as its
sole event instead of an enumeration error. -/
theorem C3_unreadable_directory (fs : FS) (input output : Option String) (ext : String)
    (padding_zeros : Nat) (include_original_name : Bool)
    (hwalk : ∀ e ∈ fs.walk (input.getD ""), ∃ msg, e = Except.error msg) :
    list_files_in_directory fs.walk (input.getD "")
      (String.mk (ext.data.dropWhile (· == '.'))) = Except.ok [] ∧
    (perform_renaming_with_progress fs input output ext padding_zeros
        include_original_name).1 =
      [Message.RenamingDone (.error "No files found to rename.")] := by
  have hnil : (fs.walk (input.getD "")).filterMap Except.toOption = [] := by
    rw [List.filterMap_eq_nil_iff]
    intro a ha
    obtain ⟨msg, rfl⟩ := hwalk a ha
    rfl
  have hok : list_files_in_directory fs.walk (input.getD "")
      (String.mk (ext.data.dropWhile (· == '.'))) = Except.ok [] := by
    simp [list_files_in_directory, hnil]
  exact ⟨hok, perform_of_empty hok⟩

theorem C3_unreadable_directory_witness :
    list_files_in_directory fsUnreadable.walk ((some "/locked").getD "")
      (String.mk ("mp3".data.dropWhile (· == '.'))) = Except.ok [] ∧
    (perform_renaming_with_progress fsUnreadable (some "/locked") (some "out") "mp3" 3 true).1 =
      [Message.RenamingDone (.error "No files found to rename.")] :=
  C3_unreadable_directory fsUnreadable (some "/locked") (some "out") "mp3" 3 true
    (by
      intro e he
      simp [fsUnreadable] at he
      exact ⟨_, he⟩)

/-- Membership in the enumeration result: exactly the paths of regular-file
walk entries whose extension matches the (lower-cased) parameter. -/
theorem mem_list_files {walk : String → List (Except String WalkEntry)}
    {path ext : String} {l : List String} (p : String)
    (h : list_files_in_directory walk path ext = .ok l) :
    p ∈ l ↔
      (∃ entry, Except.ok entry ∈ walk path ∧ entry.isFile = true ∧ entry.path = p) ∧
      ∃ x, extension p = some x ∧ lowerStr x = lowerStr ext := by
  simp only [list_files_in_directory] at h
  injection h with h
  subst h
  rw [List.mem_mergeSort, List.mem_filterMap]
  constructor
  · rintro ⟨entry, hmem, hsome⟩
    rcases List.mem_filter.mp hmem with ⟨hmem', hfile⟩
    rcases List.mem_filterMap.mp hmem' with ⟨exc, hexc, hopt⟩
    have hexc' : exc = Except.ok entry := by
      cases exc with
      | error e => cases hopt
      | ok v => cases hopt; rfl
    subst hexc'
    by_cases hkeep : ((extension entry.path).map
        (fun e => lowerStr e == lowerStr ext)).getD false = true
    · rw [if_pos hkeep] at hsome
      cases hsome
      refine ⟨⟨entry, hexc, hfile, rfl⟩, ?_⟩
      cases hext : extension entry.path with
      | none => rw [hext] at hkeep; cases hkeep
      | some x =>
        rw [hext] at hkeep
        simp at hkeep
        exact ⟨x, rfl, hkeep⟩
    · rw [if_neg hkeep] at hsome
      cases hsome
  · rintro ⟨⟨entry, hexc, hfile, rfl⟩, x, hext, hlow⟩
    refine ⟨entry, List.mem_filter.mpr ⟨List.mem_filterMap.mpr ⟨Except.ok entry, hexc, rfl⟩,
      hfile⟩, ?_⟩
    rw [if_pos ?_]
    rw [hext]
    simp [hlow]

/-- C7: the enumerate operation, invoked as the executor invokes it (with
leading dots stripped from the extension parameter), keeps exactly the
regular files whose extension equals the parameter case-insensitively. -/
theorem C7_extension_filter (walk : String → List (Except String WalkEntry))
    (path ext : String) (l : List String) (p : String)
    (h : list_files_in_directory walk path
      (String.mk (ext.data.dropWhile (· == '.'))) = .ok l) :
    p ∈ l ↔
      (∃ entry, Except.ok entry ∈ walk path ∧ entry.isFile = true ∧ entry.path = p) ∧
      ∃ x, extension p = some x ∧
        lowerStr x = lowerStr (String.mk (ext.data.dropWhile (· == '.'))) :=
  mem_list_files p h

/-- A directory whose files carry extensions mp3, txt and MP3. -/
def fsMixed : FS where
  contents := fun p =>
    if p = "in/a.mp3" then some "A"
    else if p = "in/b.txt" then some "B"
    else if p = "in/c.MP3" then some "C"
    else none
  walk := fun p =>
    if p = "in" then
      [Except.ok ⟨"in", false⟩, Except.ok ⟨"in/b.txt", true⟩,
       Except.ok ⟨"in/c.MP3", true⟩, Except.ok ⟨"in/a.mp3", true⟩]
    else []
  createDirAll := fun _ => Except.ok ()
  copyPerm := fun _ _ => Except.ok ()

theorem C7_extension_filter_witness :
    list_files_in_directory fsMixed.walk "in"
      (String.mk (".mp3".data.dropWhile (· == '.'))) =
      Except.ok ["in/a.mp3", "in/c.MP3"] ∧
    ("in/c.MP3" ∈ ["in/a.mp3", "in/c.MP3"] ↔
      (∃ entry, Except.ok entry ∈ fsMixed.walk "in" ∧ entry.isFile = true ∧
        entry.path = "in/c.MP3") ∧
      ∃ x, extension "in/c.MP3" = some x ∧
        lowerStr x = lowerStr (String.mk (".mp3".data.dropWhile (· == '.')))) := by
  have hlist : list_files_in_directory fsMixed.walk "in"
      (String.mk (".mp3".data.dropWhile (· == '.'))) =
      Except.ok ["in/a.mp3", "in/c.MP3"] := by
    simp +decide [list_files_in_directory, fsMixed, extension, fileName, extSplit, splitSlash,
      lowerStr, lowerChar, List.mergeSort, List.merge, natLe, natordCompare, natCmp, charCmp,
      isDigitChar, digitsVal, digitVal, Except.toOption]
  exact ⟨hlist, C7_extension_filter fsMixed.walk "in" ".mp3" _ "in/c.MP3" hlist⟩

/-- C10: a file whose path has no extension is never returned by
`list_files_in_directory`, whatever the extension argument (including the
empty string). -/
theorem C10_no_extension_never_matches (walk : String → List (Except String WalkEntry))
    (path ext : String) (l : List String) (p : String)
    (h : list_files_in_directory walk path ext = .ok l)
    (hnoext : extension p = none) : p ∉ l := by
  intro hp
  rcases (mem_list_files p h).mp hp with ⟨-, x, hx, -⟩
  rw [hnoext] at hx
  cases hx

/-- A directory containing a file without extension. -/
def fsNoExt : FS where
  contents := fun p => if p = "in/LICENSE" then some "MIT" else none
  walk := fun p =>
    if p = "in" then [Except.ok ⟨"in", false⟩, Except.ok ⟨"in/LICENSE", true⟩]
    else []
  createDirAll := fun _ => Except.ok ()
  copyPerm := fun _ _ => Except.ok ()

theorem C10_no_extension_never_matches_witness :
    "in/LICENSE" ∉ ([] : List String) :=
  C10_no_extension_never_matches fsNoExt.walk "in" "" [] "in/LICENSE"
    (by simp +decide [list_files_in_directory, fsNoExt, extension, fileName, extSplit,
      splitSlash, lowerStr, lowerChar, Except.toOption])
    (by simp +decide [extension, fileName, extSplit, splitSlash])

/-- C4: the sequence returned by `list_files_in_directory` is sorted by the
natural-order comparison of the full path strings: no adjacent (indeed no
ordered) pair compares as greater. -/
theorem C4_natural_order_sorted (walk : String → List (Except String WalkEntry))
    (path ext : String) (l : List String)
    (h : list_files_in_directory walk path ext = .ok l) :
    l.Pairwise (fun a b => natordCompare a b ≠ .gt) := by
  simp only [list_files_in_directory] at h
  injection h with h
  subst h
  refine List.Pairwise.imp ?_ (@List.sorted_mergeSort _ natLe
    (fun a b c hab hbc => natLe_trans a b c hab hbc)
    (fun a b => natLe_total a b) _)
  exact fun hab => natLe_iff.mp hab

theorem C4_natural_order_sorted_witness :
    list_files_in_directory fsDemo.walk "in" "mp3" =
      Except.ok ["in/a1.mp3", "in/a2.mp3", "in/a10.mp3"] ∧
    (["in/a1.mp3", "in/a2.mp3", "in/a10.mp3"] : List String).Pairwise
      (fun a b => natordCompare a b ≠ .gt) := by
  have hlist : list_files_in_directory fsDemo.walk "in" "mp3" =
      Except.ok ["in/a1.mp3", "in/a2.mp3", "in/a10.mp3"] := by
    simp +decide [list_files_in_directory, fsDemo, extension, fileName, extSplit, splitSlash,
      lowerStr, lowerChar, List.mergeSort, List.merge, natLe, natordCompare, natCmp, charCmp,
      isDigitChar, digitsVal, digitVal, Except.toOption]
  exact ⟨hlist, C4_natural_order_sorted fsDemo.walk "in" "mp3" _ hlist⟩

/-- Modelled from the spec's words for the index string: "`i` left-padded
with zeros to `padding_width` characters; if `i` requires more digits than
`padding_width`, it is rendered with its natural digit count — no
truncation".  Stated independently of `zeroPad` to compare against the
code. -/
def specIndexStr (i width : Nat) : String :=
  if width ≤ (toString i).length then toString i
  else String.mk (List.replicate (width - (toString i).length) '0' ++ (toString i).data)

theorem zeroPad_eq_specIndexStr (i width : Nat) : zeroPad i width = specIndexStr i width := by
  rw [zeroPad, specIndexStr]
  by_cases h : width ≤ (toString i).length
  · rw [if_pos h]
    have hz : width - (toString i).length = 0 := by omega
    rw [hz]
    cases toString i with
    | mk data => rfl
  · rw [if_neg h]
    cases toString i with
    | mk data => rfl

/-- C5: the name generator returns a list of the same length and order; the
entry at 1-based position `i` is `index_str ++ "_" ++ original_file_name`
when `include_original_name` is set and `index_str ++ ".ext"` (or bare
`index_str` for an extensionless file) otherwise, `index_str` being the
1-based position left-padded to `padding_zeros` characters and untruncated
when it needs more digits. -/
theorem C5_name_generation (files : List String) (padding_zeros : Nat)
    (include_original_name : Bool) :
    (rename_files_with_leading_zeros files padding_zeros include_original_name).length =
      files.length ∧
    ∀ i (h : i < files.length),
      (rename_files_with_leading_zeros files padding_zeros include_original_name).get
          ⟨i, by rw [rename_length]; exact h⟩ =
        (if include_original_name then
          specIndexStr (i + 1) padding_zeros ++ "_" ++
            (fileName (files.get ⟨i, h⟩)).getD ""
        else
          specIndexStr (i + 1) padding_zeros ++
            ((extension (files.get ⟨i, h⟩)).map (fun e => "." ++ e)).getD "") := by
  refine ⟨rename_length files padding_zeros include_original_name, ?_⟩
  intro i h
  simp only [rename_files_with_leading_zeros, List.get_eq_getElem, List.getElem_map,
    List.getElem_enum]
  rw [zeroPad_eq_specIndexStr]

theorem C5_name_generation_witness :
    (rename_files_with_leading_zeros ["song1.mp3", "song2.mp3"] 3 true).length = 2 ∧
    (rename_files_with_leading_zeros ["song1.mp3", "song2.mp3"] 3 true).get
      ⟨1, by simp [rename_length]⟩ = "002_song2.mp3" := by
  have h := C5_name_generation ["song1.mp3", "song2.mp3"] 3 true
  refine ⟨h.1, ?_⟩
  rw [h.2 1 (by simp)]
  simp +decide [specIndexStr, fileName, splitSlash]

/-- C1: when enumeration yields `n ≥ 1` files and every copy succeeds, the
stream is exactly `n` progress events with `completed = 1, 2, ..., n` (each
with `total = n`), followed by one terminal success event listing the `n`
destination paths in enumeration order, with nothing after it. -/
theorem C1_success_stream (fs : FS) (input output : Option String) (ext : String)
    (padding_zeros : Nat) (include_original_name : Bool) (files : List String)
    (hfiles : list_files_in_directory fs.walk (input.getD "")
      (String.mk (ext.data.dropWhile (· == '.'))) = .ok files)
    (hn : 1 ≤ files.length)
    (hdir : fs.createDirAll (output.getD "") = .ok ())
    (hcopies : (applyCopies fs (output.getD "")
      (files.zip (rename_files_with_leading_zeros files padding_zeros
        include_original_name))).isOk = true) :
    (perform_renaming_with_progress fs input output ext padding_zeros
        include_original_name).1 =
      (List.range files.length).map
        (fun k => Message.RenamingProgress (k + 1) files.length) ++
      [Message.RenamingDone (.ok ((rename_files_with_leading_zeros files padding_zeros
        include_original_name).map (pathJoin (output.getD ""))))] := by
  obtain ⟨fs', hfs'⟩ : ∃ fs', applyCopies fs (output.getD "")
      (files.zip (rename_files_with_leading_zeros files padding_zeros
        include_original_name)) = .ok fs' := by
    cases happ : applyCopies fs (output.getD "")
        (files.zip (rename_files_with_leading_zeros files padding_zeros
          include_original_name)) with
    | error e => rw [happ] at hcopies; cases hcopies
    | ok v => exact ⟨v, rfl⟩
  have hne : files ≠ [] := by
    intro hnil
    rw [hnil] at hn
    cases hn
  rw [perform_eq_copyLoop hfiles hne hdir,
    copyLoop_ok _ fs fs' (output.getD "") 0 files.length [] hfs']
  have hlen : (files.zip (rename_files_with_leading_zeros files padding_zeros
      include_original_name)).length = files.length := by
    rw [List.length_zip, rename_length]
    omega
  have hsnd : (files.zip (rename_files_with_leading_zeros files padding_zeros
      include_original_name)).map (fun pr => pathJoin (output.getD "") pr.2) =
      (rename_files_with_leading_zeros files padding_zeros include_original_name).map
        (pathJoin (output.getD "")) := by
    have hcomp : (files.zip (rename_files_with_leading_zeros files padding_zeros
        include_original_name)).map (fun pr => pathJoin (output.getD "") pr.2) =
        ((files.zip (rename_files_with_leading_zeros files padding_zeros
          include_original_name)).map Prod.snd).map (pathJoin (output.getD "")) := by
      rw [List.map_map]
      rfl
    rw [hcomp, List.map_snd_zip]
    rw [rename_length]
  rw [hlen, hsnd]
  simp

theorem C1_success_stream_witness :
    (perform_renaming_with_progress fsDemo (some "in") (some "out") "mp3" 3 true).1 =
      [Message.RenamingProgress 1 3, Message.RenamingProgress 2 3,
       Message.RenamingProgress 3 3,
       Message.RenamingDone
         (.ok ["out/001_a1.mp3", "out/002_a2.mp3", "out/003_a10.mp3"])] := by
  have h := C1_success_stream fsDemo (some "in") (some "out") "mp3" 3 true
    ["in/a1.mp3", "in/a2.mp3", "in/a10.mp3"]
    (by simp +decide [list_files_in_directory, fsDemo, extension, fileName, extSplit,
      splitSlash, lowerStr, lowerChar, List.mergeSort, List.merge, natLe, natordCompare,
      natCmp, charCmp, isDigitChar, digitsVal, digitVal, Except.toOption])
    (by simp)
    (by simp [fsDemo])
    (by simp +decide [applyCopies, fsCopy, fsDemo, pathJoin, rename_files_with_leading_zeros,
      zeroPad, fileName, extension, extSplit, splitSlash, List.enum, List.enumFrom])
  rw [h]
  simp +decide [rename_files_with_leading_zeros, zeroPad, fileName, extension, extSplit,
    splitSlash, pathJoin, List.enum, List.enumFrom, List.range_succ]

theorem applyCopies_append (fs : FS) (out : String) (xs ys : List (String × String)) :
    applyCopies fs out (xs ++ ys) =
      match applyCopies fs out xs with
      | .error e => .error e
      | .ok fs1 => applyCopies fs1 out ys := by
  induction xs generalizing fs with
  | nil => rw [List.nil_append, applyCopies]
  | cons pr rest ih =>
    obtain ⟨old, nm⟩ := pr
    rw [List.cons_append, applyCopies, applyCopies]
    cases hcopy : fsCopy fs old (pathJoin out nm) with
    | error e => rfl
    | ok fs1 => exact ih fs1

/-- C2: when the copy of the file after the prefix `pre` fails with error
`e` (all of `pre`'s copies having succeeded), the stream is exactly
`pre.length` progress events with `completed = 1, ..., pre.length` followed
by the single terminal failure event carrying `e`; the executor stops in the
state reached after `pre`'s copies, so no copy of any later file is
attempted, and every file already copied is still present in the output
directory (no rollback). -/
theorem C2_midstream_failure (fs : FS) (input output : Option String) (ext : String)
    (padding_zeros : Nat) (include_original_name : Bool) (files : List String)
    (pre post : List (String × String)) (old nm e : String)
    (hfiles : list_files_in_directory fs.walk (input.getD "")
      (String.mk (ext.data.dropWhile (· == '.'))) = .ok files)
    (hdir : fs.createDirAll (output.getD "") = .ok ())
    (hsplit : files.zip (rename_files_with_leading_zeros files padding_zeros
      include_original_name) = pre ++ (old, nm) :: post)
    (hpreok : (applyCopies fs (output.getD "") pre).isOk = true)
    (hfail : applyCopies fs (output.getD "") (pre ++ [(old, nm)]) = .error e) :
    (perform_renaming_with_progress fs input output ext padding_zeros
        include_original_name).1 =
      (List.range pre.length).map
        (fun k => Message.RenamingProgress (k + 1) files.length) ++
      [Message.RenamingDone (.error e)] ∧
    (∀ fs1, applyCopies fs (output.getD "") pre = .ok fs1 →
      (perform_renaming_with_progress fs input output ext padding_zeros
        include_original_name).2 = fs1) ∧
    ∀ pr ∈ pre,
      (((perform_renaming_with_progress fs input output ext padding_zeros
        include_original_name).2).contents
          (pathJoin (output.getD "") pr.2)).isSome = true := by
  obtain ⟨fs1, hfs1⟩ : ∃ fs1, applyCopies fs (output.getD "") pre = .ok fs1 := by
    cases happ : applyCopies fs (output.getD "") pre with
    | error e0 => rw [happ] at hpreok; cases hpreok
    | ok v => exact ⟨v, rfl⟩
  have hfailcopy : fsCopy fs1 old (pathJoin (output.getD "") nm) = .error e := by
    have happend := applyCopies_append fs (output.getD "") pre [(old, nm)]
    rw [hfail, hfs1] at happend
    dsimp only at happend
    rw [applyCopies] at happend
    cases hcopy : fsCopy fs1 old (pathJoin (output.getD "") nm) with
    | error e0 =>
      rw [hcopy] at happend
      dsimp only at happend
      injection happend with happend
      rw [happend]
    | ok fs2 =>
      rw [hcopy] at happend
      dsimp only at happend
      rw [applyCopies] at happend
      cases happend
  have hne : files ≠ [] := by
    intro h0
    rw [h0] at hsplit
    simp at hsplit
  have hrun : perform_renaming_with_progress fs input output ext padding_zeros
      include_original_name =
      ((List.range pre.length).map
        (fun k => Message.RenamingProgress (k + 1) files.length) ++
      [Message.RenamingDone (.error e)], fs1) := by
    rw [perform_eq_copyLoop hfiles hne hdir, hsplit,
      copyLoop_fail pre fs fs1 (output.getD "") old nm e post 0 files.length [] hfs1 hfailcopy]
    have hmap : (List.range pre.length).map
        (fun k => Message.RenamingProgress (0 + k + 1) files.length) =
        (List.range pre.length).map
          (fun k => Message.RenamingProgress (k + 1) files.length) := by
      apply List.map_congr_left
      intro k _
      have : 0 + k + 1 = k + 1 := by omega
      rw [this]
    rw [hmap]
  refine ⟨by rw [hrun], ?_, ?_⟩
  · intro fs1' hfs1'
    rw [hfs1] at hfs1'
    injection hfs1' with hfs1'
    rw [hrun, ← hfs1']
  · intro pr hpr
    rw [hrun]
    exact applyCopies_dest_isSome pre fs fs1 (output.getD "") hfs1 pr hpr

/-- `fsDemo` with a permission oracle that refuses to write the second
destination file. -/
def fsFail : FS where
  contents := fsDemo.contents
  walk := fsDemo.walk
  createDirAll := fun _ => Except.ok ()
  copyPerm := fun _ new =>
    if new = "out/002_a2.mp3" then Except.error "Permission denied (os error 13)"
    else Except.ok ()

theorem C2_midstream_failure_witness :
    (perform_renaming_with_progress fsFail (some "in") (some "out") "mp3" 3 true).1 =
      [Message.RenamingProgress 1 3,
       Message.RenamingDone (.error "Permission denied (os error 13)")] ∧
    (((perform_renaming_with_progress fsFail (some "in") (some "out") "mp3" 3 true).2).contents
      "out/001_a1.mp3").isSome = true := by
  have h := C2_midstream_failure fsFail (some "in") (some "out") "mp3" 3 true
    ["in/a1.mp3", "in/a2.mp3", "in/a10.mp3"]
    [("in/a1.mp3", "001_a1.mp3")] [("in/a10.mp3", "003_a10.mp3")]
    "in/a2.mp3" "002_a2.mp3" "Permission denied (os error 13)"
    (by simp +decide [list_files_in_directory, fsFail, fsDemo, extension, fileName, extSplit,
      splitSlash, lowerStr, lowerChar, List.mergeSort, List.merge, natLe, natordCompare,
      natCmp, charCmp, isDigitChar, digitsVal, digitVal, Except.toOption])
    (by simp [fsFail])
    (by simp +decide [rename_files_with_leading_zeros, zeroPad, fileName, extension, extSplit,
      splitSlash, List.enum, List.enumFrom])
    (by simp +decide [applyCopies, fsCopy, fsFail, fsDemo, pathJoin])
    (by simp +decide [applyCopies, fsCopy, fsFail, fsDemo, pathJoin])
  refine ⟨?_, h.2.2 ("in/a1.mp3", "001_a1.mp3") (by simp)⟩
  rw [h.1]
  simp [List.range_succ]

theorem applyCopies_contents_of_not_dest : ∀ (pairs : List (String × String))
    (fs fs' : FS) (out p : String), applyCopies fs out pairs = .ok fs' →
    (∀ pr ∈ pairs, p ≠ pathJoin out pr.2) → fs'.contents p = fs.contents p := by
  intro pairs
  induction pairs with
  | nil =>
    intro fs fs' out p h _
    rw [applyCopies] at h
    cases h
    rfl
  | cons pr0 rest ih =>
    intro fs fs' out p h hp
    obtain ⟨old, nm⟩ := pr0
    rw [applyCopies] at h
    cases hcopy : fsCopy fs old (pathJoin out nm) with
    | error e => rw [hcopy] at h; cases h
    | ok fs1 =>
      rw [hcopy] at h
      dsimp only at h
      rw [ih fs1 fs' out p h (fun qr hqr => hp qr (List.mem_cons_of_mem _ hqr))]
      exact fsCopy_contents_of_ne hcopy (hp (old, nm) (List.mem_cons_self _ _))

/-- The content written by a successful copy is the source's content. -/
theorem fsCopy_dest_contents {fs fs' : FS} {old new : String}
    (h : fsCopy fs old new = .ok fs') : fs'.contents new = fs.contents old := by
  rw [fsCopy] at h
  cases hperm : fs.copyPerm old new with
  | error e => rw [hperm] at h; cases h
  | ok u =>
    rw [hperm] at h
    cases hold : fs.contents old with
    | none => rw [hold] at h; cases h
    | some data =>
      rw [hold] at h
      cases h
      simp [hold]

/-- On a fully successful run whose source paths avoid all destination paths
and whose destination paths are pairwise distinct, each destination ends up
holding the bytes of its source. -/
theorem applyCopies_bytes : ∀ (pairs : List (String × String)) (fs fs' : FS) (out : String),
    applyCopies fs out pairs = .ok fs' →
    (∀ pr ∈ pairs, ∀ qr ∈ pairs, pr.1 ≠ pathJoin out qr.2) →
    (pairs.map (fun pr => pathJoin out pr.2)).Nodup →
    ∀ pr ∈ pairs, fs'.contents (pathJoin out pr.2) = fs.contents pr.1 := by
  intro pairs
  induction pairs with
  | nil => intro fs fs' out _ _ _ pr hpr; cases hpr
  | cons pr0 rest ih =>
    intro fs fs' out h hdisj hnodup pr hpr
    obtain ⟨old0, nm0⟩ := pr0
    rw [applyCopies] at h
    cases hcopy : fsCopy fs old0 (pathJoin out nm0) with
    | error e => rw [hcopy] at h; cases h
    | ok fs1 =>
      rw [hcopy] at h
      dsimp only at h
      rw [List.map_cons, List.nodup_cons] at hnodup
      rcases List.mem_cons.mp hpr with rfl | hpr'
      · have h1 : fs1.contents (pathJoin out nm0) = fs.contents old0 :=
          fsCopy_dest_contents hcopy
        have h2 : fs'.contents (pathJoin out nm0) = fs1.contents (pathJoin out nm0) :=
          applyCopies_contents_of_not_dest rest fs1 fs' out _ h (fun qr hqr hq => by
            exact hnodup.1 (hq ▸ List.mem_map.mpr ⟨qr, hqr, rfl⟩))
        rw [h2, h1]
      · have hsrc : fs1.contents pr.1 = fs.contents pr.1 :=
          fsCopy_contents_of_ne hcopy
            (hdisj pr (List.mem_cons_of_mem _ hpr') (old0, nm0) (List.mem_cons_self _ _))
        rw [ih fs1 fs' out h
          (fun a ha b hb => hdisj a (List.mem_cons_of_mem _ ha) b (List.mem_cons_of_mem _ hb))
          hnodup.2 pr hpr', hsrc]

/-- The executor's final state is either the initial one — because the file
list was empty or the output directory could not be created — or the copy
loop's final state. -/
theorem perform_snd_cases (fs : FS) (input output : Option String) (ext : String)
    (padding_zeros : Nat) (flag : Bool) (files : List String)
    (hfiles : list_files_in_directory fs.walk (input.getD "")
      (String.mk (ext.data.dropWhile (· == '.'))) = .ok files) :
    (files = [] ∧
      (perform_renaming_with_progress fs input output ext padding_zeros flag).2 = fs) ∨
    ((∃ e, fs.createDirAll (output.getD "") = .error e) ∧
      (perform_renaming_with_progress fs input output ext padding_zeros flag).2 = fs) ∨
    (files.length ≠ 0 ∧ fs.createDirAll (output.getD "") = .ok () ∧
      perform_renaming_with_progress fs input output ext padding_zeros flag =
        copyLoop fs (output.getD "")
          (files.zip (rename_files_with_leading_zeros files padding_zeros flag))
          0 files.length []) := by
  simp only [perform_renaming_with_progress]
  rw [hfiles]
  dsimp only
  by_cases h0 : files.length = 0
  · rw [if_pos h0]
    exact Or.inl ⟨List.eq_nil_of_length_eq_zero h0, rfl⟩
  · rw [if_neg h0]
    cases hdir : fs.createDirAll (output.getD "") with
    | error e => exact Or.inr (Or.inl ⟨⟨e, rfl⟩, rfl⟩)
    | ok u => exact Or.inr (Or.inr ⟨h0, rfl, rfl⟩)

/-- C9 counterexample: with the output directory equal to the input
directory, a generated destination path can coincide with a source file,
whose content is then overwritten — the original file `d/001.mp3` is not
left intact. -/
def fsClash : FS where
  contents := fun p =>
    if p = "d/000.mp3" then some "X"
    else if p = "d/001.mp3" then some "Y"
    else none
  walk := fun p =>
    if p = "d" then
      [Except.ok ⟨"d", false⟩, Except.ok ⟨"d/000.mp3", true⟩, Except.ok ⟨"d/001.mp3", true⟩]
    else []
  createDirAll := fun _ => Except.ok ()
  copyPerm := fun _ _ => Except.ok ()

/-- C9 counterexample: the run overwrites the source file `d/001.mp3`
(initial content `"Y"`) with the bytes of `d/000.mp3` (`"X"`): the original
file is not left intact. -/
theorem C9_intact_counterexample :
    fsClash.contents "d/001.mp3" = some "Y" ∧
    ((perform_renaming_with_progress fsClash (some "d") (some "d") "mp3" 3 false).2).contents
      "d/001.mp3" = some "X" := by
  constructor
  · simp +decide [fsClash]
  · simp +decide [perform_renaming_with_progress, list_files_in_directory, fsClash, extension,
      fileName, extSplit, splitSlash, lowerStr, lowerChar, List.mergeSort, List.merge, natLe,
      natordCompare, natCmp, charCmp, isDigitChar, digitsVal, digitVal, Except.toOption,
      rename_files_with_leading_zeros, zeroPad, copyLoop, fsCopy, pathJoin, List.enum,
      List.enumFrom]

/-- C9 (amended): the executor writes only through `fs::copy` and only to
the generated destination paths: every other path keeps its exact content
and no path is ever deleted, so no source file is ever deleted, moved or
renamed; any source file that is not itself one of the destination paths is
left intact; and on a fully successful run whose destination paths avoid the
sources and are pairwise distinct, each processed file's bytes are written to
`output_dir / new_name`. -/
theorem C9_copy_semantics (fs : FS) (input output : Option String) (ext : String)
    (padding_zeros : Nat) (include_original_name : Bool) (files : List String)
    (hfiles : list_files_in_directory fs.walk (input.getD "")
      (String.mk (ext.data.dropWhile (· == '.'))) = .ok files) :
    (∀ p, (∀ name ∈ rename_files_with_leading_zeros files padding_zeros include_original_name,
        p ≠ pathJoin (output.getD "") name) →
      ((perform_renaming_with_progress fs input output ext padding_zeros
          include_original_name).2).contents p = fs.contents p) ∧
    (∀ p, (fs.contents p).isSome = true →
      (((perform_renaming_with_progress fs input output ext padding_zeros
          include_original_name).2).contents p).isSome = true) ∧
    (∀ p ∈ files,
      (∀ name ∈ rename_files_with_leading_zeros files padding_zeros include_original_name,
        p ≠ pathJoin (output.getD "") name) →
      ((perform_renaming_with_progress fs input output ext padding_zeros
          include_original_name).2).contents p = fs.contents p) ∧
    (fs.createDirAll (output.getD "") = .ok () →
      (applyCopies fs (output.getD "")
        (files.zip (rename_files_with_leading_zeros files padding_zeros
          include_original_name))).isOk = true →
      (∀ pr ∈ files.zip (rename_files_with_leading_zeros files padding_zeros
          include_original_name),
        ∀ qr ∈ files.zip (rename_files_with_leading_zeros files padding_zeros
          include_original_name), pr.1 ≠ pathJoin (output.getD "") qr.2) →
      ((files.zip (rename_files_with_leading_zeros files padding_zeros
          include_original_name)).map
        (fun pr => pathJoin (output.getD "") pr.2)).Nodup →
      ∀ pr ∈ files.zip (rename_files_with_leading_zeros files padding_zeros
          include_original_name),
        ((perform_renaming_with_progress fs input output ext padding_zeros
            include_original_name).2).contents (pathJoin (output.getD "") pr.2) =
          fs.contents pr.1) := by
  have hframe : ∀ p,
      (∀ name ∈ rename_files_with_leading_zeros files padding_zeros include_original_name,
        p ≠ pathJoin (output.getD "") name) →
      ((perform_renaming_with_progress fs input output ext padding_zeros
          include_original_name).2).contents p = fs.contents p := by
    intro p hp
    rcases perform_snd_cases fs input output ext padding_zeros include_original_name files
        hfiles with ⟨-, hid⟩ | ⟨-, hid⟩ | ⟨-, -, hloop⟩
    · rw [hid]
    · rw [hid]
    · rw [hloop]
      exact copyLoop_contents_of_not_dest _ fs (output.getD "") 0 files.length [] p
        (fun pr hpr => hp pr.2 (List.of_mem_zip hpr).2)
  refine ⟨hframe, ?_, fun p _ hp => hframe p hp, ?_⟩
  · intro p hp
    rcases perform_snd_cases fs input output ext padding_zeros include_original_name files
        hfiles with ⟨-, hid⟩ | ⟨-, hid⟩ | ⟨-, -, hloop⟩
    · rw [hid]
      exact hp
    · rw [hid]
      exact hp
    · rw [hloop]
      exact copyLoop_isSome _ fs (output.getD "") 0 files.length [] p hp
  · intro hdir hok hdisj hnodup pr hpr
    obtain ⟨fs', hfs'⟩ : ∃ fs', applyCopies fs (output.getD "")
        (files.zip (rename_files_with_leading_zeros files padding_zeros
          include_original_name)) = .ok fs' := by
      cases happ : applyCopies fs (output.getD "")
          (files.zip (rename_files_with_leading_zeros files padding_zeros
            include_original_name)) with
      | error e => rw [happ] at hok; cases hok
      | ok v => exact ⟨v, rfl⟩
    rcases perform_snd_cases fs input output ext padding_zeros include_original_name files
        hfiles with ⟨hnil, -⟩ | ⟨⟨e, he⟩, -⟩ | ⟨-, -, hloop⟩
    · rw [hnil] at hpr
      simp at hpr
    · rw [hdir] at he
      cases he
    · rw [hloop, copyLoop_ok _ fs fs' (output.getD "") 0 files.length [] hfs']
      exact applyCopies_bytes _ fs fs' (output.getD "") hfs' hdisj hnodup pr hpr

theorem C9_copy_semantics_witness :
    ((perform_renaming_with_progress fsDemo (some "in") (some "out") "mp3" 3 true).2).contents
      "in/a1.mp3" = fsDemo.contents "in/a1.mp3" :=
  (C9_copy_semantics fsDemo (some "in") (some "out") "mp3" 3 true
    ["in/a1.mp3", "in/a2.mp3", "in/a10.mp3"]
    (by simp +decide [list_files_in_directory, fsDemo, extension, fileName, extSplit,
      splitSlash, lowerStr, lowerChar, List.mergeSort, List.merge, natLe, natordCompare,
      natCmp, charCmp, isDigitChar, digitsVal, digitVal, Except.toOption])).1 "in/a1.mp3"
    (by simp +decide [rename_files_with_leading_zeros, zeroPad, fileName, extension,
      extSplit, splitSlash, pathJoin, List.enum, List.enumFrom])

end Renamer
